import Mathlib

/-!
# A verification development for `bruh.cc`

The translation unit defines

* `class Numero`: one `int` field `num`, a constructor, `operator+` and `print`;
* `recorrer`: prints its `length` argument and runs an empty counting loop;
* `struct Person`, `saludar` and `main`: a record passed by value and by address.

The C++ type `int` is embedded as a mathematical integer together with the range
predicate `isInt32`.  Signed overflow is undefined in C++, so `int` addition is
embedded with an explicit overflow policy, consulted only when the exact sum is
not representable; `wrapping` is the two's complement policy.
-/

namespace Bruh

/-! ## The type `int` -/

/-- Smallest value of a 32-bit two's complement `int`. -/
def INT_MIN : Int := -2147483648

/-- Largest value of a 32-bit two's complement `int`. -/
def INT_MAX : Int := 2147483647

/-- The integer `x` is representable in the type `int`. -/
def isInt32 (x : Int) : Prop := INT_MIN ≤ x ∧ x ≤ INT_MAX

instance (x : Int) : Decidable (isInt32 x) := by
  unfold isInt32
  infer_instance

/-- Reduction modulo `2^32` into the range of `int` (two's complement wrap-around). -/
def wrap32 (x : Int) : Int := (x + 2147483648) % 4294967296 - 2147483648

/-- An overflow policy gives the value of `x + y` on `int` operands when the exact
sum is not representable. -/
abbrev OverflowPolicy := Int → Int → Int

/-- The wrapping policy: the exact sum reduced modulo `2^32`. -/
def wrapping : OverflowPolicy := fun x y => wrap32 (x + y)

/-- The saturating policy: the exact sum clamped to the range of `int`. -/
def saturating : OverflowPolicy := fun x y => max INT_MIN (min INT_MAX (x + y))

/-- The expression `x + y` on `int` operands: the exact sum when it is representable,
otherwise whatever the overflow policy says. -/
def intAdd (ovf : OverflowPolicy) (x y : Int) : Int :=
  if isInt32 (x + y) then x + y else ovf x y

/-! ## Decimal output of an `int` (`std::cout << int`, `printf("%d", int)`) -/

/-- The character of a decimal digit. -/
def digitChar : Nat → Char
  | 0 => '0'
  | 1 => '1'
  | 2 => '2'
  | 3 => '3'
  | 4 => '4'
  | 5 => '5'
  | 6 => '6'
  | 7 => '7'
  | 8 => '8'
  | _ => '9'

/-- Digits of `n`, most significant first, pushed in front of `acc`; `fuel` bounds the
number of digits produced. -/
def decimalDigitsAux : Nat → Nat → List Char → List Char
  | 0, _, acc => acc
  | fuel + 1, n, acc =>
    if n / 10 = 0 then digitChar (n % 10) :: acc
    else decimalDigitsAux fuel (n / 10) (digitChar (n % 10) :: acc)

/-- Decimal digits of a natural number, most significant first. -/
def decimalDigits (n : Nat) : List Char := decimalDigitsAux (n + 1) n []

/-- The text written for an `int` by `std::cout << x` on a stream in its initial
formatting state, and by `printf("%d", x)`: a minus sign for a negative value, then
the decimal digits of the magnitude. -/
def formatInt (x : Int) : List Char :=
  if x < 0 then '-' :: decimalDigits x.natAbs else decimalDigits x.natAbs

/-- The value of a decimal digit character. -/
def digitVal (c : Char) : Option Nat :=
  if c = '0' then some 0
  else if c = '1' then some 1
  else if c = '2' then some 2
  else if c = '3' then some 3
  else if c = '4' then some 4
  else if c = '5' then some 5
  else if c = '6' then some 6
  else if c = '7' then some 7
  else if c = '8' then some 8
  else if c = '9' then some 9
  else none

/-- Reads a run of decimal digits, most significant first, continuing from the value
`acc` of the digits already read. -/
def readDigits : Nat → List Char → Option Nat
  | acc, [] => some acc
  | acc, c :: cs =>
    match digitVal c with
    | some d => readDigits (10 * acc + d) cs
    | none => none

/-- A digit string in canonical form: not empty, and no leading zero unless it is
the single digit zero. -/
def canonicalDigits (ds : List Char) : Prop :=
  ds ≠ [] ∧ (ds.head? = some '0' → ds = ['0'])

instance (ds : List Char) : Decidable (canonicalDigits ds) := by
  unfold canonicalDigits
  infer_instance

/-- The text `t` is the decimal textual representation of the integer `x`: for
`x ≥ 0` the canonical digit string of `x`, for `x < 0` a minus sign followed by the
canonical digit string of `-x`. -/
def IsDecimalRepr (x : Int) (t : List Char) : Prop :=
  if x < 0 then
    ∃ ds, t = '-' :: ds ∧ canonicalDigits ds ∧ readDigits 0 ds = some x.natAbs
  else
    canonicalDigits t ∧ readDigits 0 t = some x.natAbs

/-- The standard output stream: the characters written so far. -/
structure OStream where
  out : List Char
deriving DecidableEq

/-- Appends text to the stream. -/
def OStream.write (s : OStream) (t : List Char) : OStream := { out := s.out ++ t }

/-! ## `class Numero` -/

/-- An object of `class Numero`: its only data member is `int num`. -/
structure Numero where
  num : Int
deriving DecidableEq

/-- The object holds a representable `int`. -/
def Numero.valid (v : Numero) : Prop := isInt32 v.num

instance (v : Numero) : Decidable v.valid := by
  unfold Numero.valid
  infer_instance

/-- The constructor `Numero(int n1) { this->num = n1; }`. -/
def Numero.ctor (n1 : Int) : Numero := { num := n1 }

/-- The member `Numero operator+(Numero const& n)` as a function of the two operand
values: `Numero res(0); res.num = num + n.num; return res;`. -/
def Numero.operator_plus (ovf : OverflowPolicy) (self n : Numero) : Numero :=
  let res := Numero.ctor 0
  let res := { res with num := intAdd ovf self.num n.num }
  res

/-- The member `void print() { std::cout << num << '\n'; }`: returns the object after
the call and the stream after the call. -/
def Numero.print (self : Numero) (cout : OStream) : Numero × OStream :=
  let cout := cout.write (formatInt self.num)
  let cout := cout.write ['\n']
  (self, cout)

/-- Memory holding `Numero` objects; an address is an index into the list. -/
abbrev Mem := List Numero

/-- The member `operator+` on objects in memory.  `this` and `n` are the addresses of
the operands (they may coincide).  The local `res` is allocated at the first free
address, constructed with `0`, assigned the sum, copied out as the return value, and
destroyed.  Returns the returned object together with the memory after the call;
an operand address outside `m` gives `none`. -/
def Numero.operator_plus_mem (ovf : OverflowPolicy) (m : Mem) (this n : Nat) :
    Option (Numero × Mem) :=
  if this < m.length ∧ n < m.length then
    let res := m.length
    let m1 := m ++ [Numero.ctor 0]
    match m1[this]?, m1[n]?, m1[res]? with
    | some a, some b, some r =>
      let m2 := m1.set res { r with num := intAdd ovf a.num b.num }
      match m2[res]? with
      | some ret => some (ret, m2.take res)
      | none => none
    | _, _, _ => none
  else none

/-! ## `recorrer` -/

/-- State of the loop `for (int i = 0; i < length; i++) { }`: the counter, the number
of iterations of the body performed so far, and whether some `i++` overflowed. -/
structure LoopState where
  i : Int
  iterations : Nat
  overflowed : Bool
deriving DecidableEq

/-- Runs the loop from a state; every test of the condition `i < length` takes one
unit of fuel, and `none` means the fuel ran out before the loop was left. -/
def recorrerLoop (ovf : OverflowPolicy) (length : Int) : Nat → LoopState → Option LoopState
  | 0, _ => none
  | fuel + 1, st =>
    if st.i < length then
      recorrerLoop ovf length fuel
        { i := intAdd ovf st.i 1
          iterations := st.iterations + 1
          overflowed := st.overflowed || !decide (isInt32 (st.i + 1)) }
    else some st

/-- What a call of `recorrer` leaves behind: the memory of `int` cells, the output
stream, and the final state of its loop. -/
structure RecorrerResult where
  mem : List Int
  cout : OStream
  loop : LoopState
deriving DecidableEq

/-- The function `void recorrer(int* arr, int length)`: `printf("%d", length)`
followed by the loop with the empty body.  `mem` is the memory of `int` cells and
`arr` an address in it. -/
def recorrer (ovf : OverflowPolicy) (fuel : Nat) (mem : List Int) (_arr : Nat) (length : Int)
    (cout : OStream) : Option RecorrerResult :=
  let cout := cout.write (formatInt length)
  match recorrerLoop ovf length fuel { i := 0, iterations := 0, overflowed := false } with
  | some st => some { mem := mem, cout := cout, loop := st }
  | none => none

/-! ## `struct Person`, `saludar` and `main` -/

/-- An object of `struct Person`.  A field is `none` while it holds an indeterminate
value (it has not been written since the object was created). -/
structure Person where
  nombre : Option String
  color_piel : Option String
  edad : Option Nat
deriving DecidableEq

/-- The declaration `struct Person juan;` of a local variable: no field is written. -/
def Person.uninitialized : Person := { nombre := none, color_piel := none, edad := none }

/-- The local variables of `main`. -/
structure MainFrame where
  arr : List Int
  juan : Person
deriving DecidableEq

/-- The state of `main` when control reaches the call `saludar(juan, &juan)`:
`int arr[] = {1, 2, 3, 4, 5}; struct Person juan; juan.nombre = "Juan";
juan.edad = 10;`. -/
def mainBeforeCall : MainFrame :=
  let arr : List Int := [1, 2, 3, 4, 5]
  let juan := Person.uninitialized
  let juan := { juan with nombre := some "Juan" }
  let juan := { juan with edad := some (10 % 256) }
  { arr := arr, juan := juan }

/-- The function `saludar`: writes two captions, each followed by an address.
`fmtPtr` is the implementation-defined text of a pointer, `addrParam` the address of
the by-value parameter `un_boludo`, and `un_boludo_referenciado` the pointer argument.
Neither record is read or written. -/
def saludar (fmtPtr : Nat → List Char) (addrParam : Nat) (_un_boludo : Person)
    (un_boludo_referenciado : Nat) (cout : OStream) : OStream :=
  let cout := cout.write "Puntero de parametro pasado como referencia\n".toList
  let cout := cout.write (fmtPtr un_boludo_referenciado ++ ['\n'])
  let cout := cout.write "Puntero de parametro\n".toList
  let cout := cout.write (fmtPtr addrParam ++ ['\n'])
  cout

/-- The arguments `main` passes in `saludar(juan, &juan)`: a copy of `juan` and the
address `addrJuan` of `juan`, whose pointee is `juan` itself. -/
structure SaludarCall where
  byValue : Person
  byAddress : Nat
  pointee : Person
deriving DecidableEq

/-- The call `saludar(juan, &juan)` made by `main`, with `juan` at address `addrJuan`. -/
def mainCall (addrJuan : Nat) : SaludarCall :=
  { byValue := mainBeforeCall.juan, byAddress := addrJuan, pointee := mainBeforeCall.juan }

/-- The function `main`: returns the exit status, the frame at exit and the output. -/
def main (fmtPtr : Nat → List Char) (addrJuan addrParam : Nat) (cout : OStream) :
    Int × MainFrame × OStream :=
  let frame := mainBeforeCall
  let call := mainCall addrJuan
  let cout := saludar fmtPtr addrParam call.byValue call.byAddress cout
  (0, frame, cout)

/-! ## Arithmetic of `int` -/

theorem wrap32_isInt32 (x : Int) : isInt32 (wrap32 x) := by
  unfold isInt32 wrap32 INT_MIN INT_MAX
  omega

theorem wrap32_of_isInt32 {x : Int} (h : isInt32 x) : wrap32 x = x := by
  unfold isInt32 INT_MIN INT_MAX at h
  unfold wrap32
  omega

theorem wrap32_congr (x : Int) : (wrap32 x - x) % 4294967296 = 0 := by
  unfold wrap32
  omega

theorem intAdd_wrapping (x y : Int) : intAdd wrapping x y = wrap32 (x + y) := by
  unfold intAdd wrapping
  split
  · next h => exact (wrap32_of_isInt32 h).symm
  · rfl

theorem intAdd_exact (ovf : OverflowPolicy) {x y : Int} (h : isInt32 (x + y)) :
    intAdd ovf x y = x + y := by
  unfold intAdd
  rw [if_pos h]

/-! ## Decimal text -/

theorem digitVal_digitChar {d : Nat} (h : d < 10) : digitVal (digitChar d) = some d := by
  interval_cases d <;> rfl

theorem digitChar_ne_zero {d : Nat} (h : d < 10) (h0 : d ≠ 0) : digitChar d ≠ '0' := by
  interval_cases d <;> first | exact absurd rfl h0 | decide

theorem readDigits_append (xs ys : List Char) (a : Nat) :
    readDigits a (xs ++ ys) = (readDigits a xs).bind (fun v => readDigits v ys) := by
  induction xs generalizing a with
  | nil => rfl
  | cons c cs ih =>
    simp only [List.cons_append, readDigits]
    cases digitVal c with
    | none => rfl
    | some d => exact ih _

theorem readDigits_isSome_of_mem {ds : List Char} {a v : Nat} (h : readDigits a ds = some v)
    {c : Char} (hc : c ∈ ds) : digitVal c ≠ none := by
  induction ds generalizing a with
  | nil => cases hc
  | cons x xs ih =>
    simp only [readDigits] at h
    cases hx : digitVal x with
    | none => rw [hx] at h; cases h
    | some d =>
      rw [hx] at h
      rcases List.mem_cons.mp hc with rfl | hmem
      · rw [hx]; exact Option.noConfusion
      · exact ih h hmem

/-- The digits produced for `n` with enough fuel: a canonical digit string placed in
front of the accumulator, whose value is `n`. -/
theorem decimalDigitsAux_spec (fuel : Nat) :
    ∀ (n : Nat) (acc : List Char), n < fuel →
      ∃ ds, decimalDigitsAux fuel n acc = ds ++ acc ∧ ds ≠ [] ∧
        (∀ a, readDigits a ds = some (a * 10 ^ ds.length + n)) ∧
        (n ≠ 0 → ds.head? ≠ some '0') ∧ (n = 0 → ds = ['0']) := by
  induction fuel with
  | zero => intro n acc h; omega
  | succ fuel ih =>
    intro n acc hn
    by_cases hq : n / 10 = 0
    · have hlt : n < 10 := by omega
      refine ⟨[digitChar (n % 10)], ?_, by simp, ?_, ?_, ?_⟩
      · simp [decimalDigitsAux, hq]
      · intro a
        have hm : n % 10 = n := Nat.mod_eq_of_lt hlt
        simp only [readDigits, hm, digitVal_digitChar hlt, List.length_singleton, pow_one]
        congr 1
        omega
      · intro h0
        have hm : n % 10 = n := Nat.mod_eq_of_lt hlt
        have := digitChar_ne_zero (d := n % 10) (by omega) (by omega)
        simpa using this
      · intro h0
        subst h0
        rfl
    · have hlt : n / 10 < fuel := by omega
      obtain ⟨ds, hds, hne, hval, hhead, _⟩ := ih (n / 10) (digitChar (n % 10) :: acc) hlt
      refine ⟨ds ++ [digitChar (n % 10)], ?_, by simp, ?_, ?_, ?_⟩
      · simp [decimalDigitsAux, hq, hds]
      · intro a
        rw [readDigits_append, hval a]
        simp only [Option.some_bind, readDigits, digitVal_digitChar (Nat.mod_lt n (by decide)),
          List.length_append, List.length_singleton, pow_succ]
        congr 1
        have := Nat.div_add_mod n 10
        nlinarith [this]
      · intro _
        cases ds with
        | nil => exact absurd rfl hne
        | cons c cs => simpa using hhead hq
      · intro h0
        subst h0
        exact absurd rfl hq

theorem decimalDigits_spec (n : Nat) :
    canonicalDigits (decimalDigits n) ∧ readDigits 0 (decimalDigits n) = some n := by
  obtain ⟨ds, hds, hne, hval, hhead, hzero⟩ := decimalDigitsAux_spec (n + 1) n [] (by omega)
  have heq : decimalDigits n = ds := by simpa [decimalDigits] using hds
  rw [heq]
  refine ⟨⟨hne, ?_⟩, ?_⟩
  · intro h
    by_cases h0 : n = 0
    · exact hzero h0
    · exact absurd h (hhead h0)
  · simpa using hval 0

/-- The text `formatInt x` is the decimal textual representation of `x`. -/
theorem formatInt_isDecimalRepr (x : Int) : IsDecimalRepr x (formatInt x) := by
  unfold IsDecimalRepr formatInt
  obtain ⟨hc, hv⟩ := decimalDigits_spec x.natAbs
  split
  · exact ⟨_, rfl, hc, hv⟩
  · exact ⟨hc, hv⟩

/-- The text `formatInt x` consists of decimal digits, after a possible minus sign: in
particular it contains no line break. -/
theorem newline_not_mem_formatInt (x : Int) : '\n' ∉ formatInt x := by
  obtain ⟨_, hv⟩ := decimalDigits_spec x.natAbs
  have hd : '\n' ∉ decimalDigits x.natAbs := fun hmem =>
    readDigits_isSome_of_mem hv hmem (by decide)
  unfold formatInt
  split
  · intro hmem
    rcases List.mem_cons.mp hmem with h | h
    · exact absurd h (by decide)
    · exact hd h
  · exact hd

theorem decimalDigitsAux_eq (n : Nat) :
    ∀ (fuel : Nat) (acc : List Char), n < fuel →
      decimalDigitsAux fuel n acc = decimalDigits n ++ acc := by
  induction n using Nat.strong_induction_on with
  | _ n ih =>
    intro fuel acc hn
    obtain ⟨f, rfl⟩ : ∃ f, fuel = f + 1 := ⟨fuel - 1, by omega⟩
    by_cases hq : n / 10 = 0
    · simp [decimalDigits, decimalDigitsAux, hq]
    · have hlt : n / 10 < n := by omega
      have h1 := ih (n / 10) hlt f (digitChar (n % 10) :: acc) (by omega)
      have h2 := ih (n / 10) hlt n [digitChar (n % 10)] hlt
      simp only [decimalDigits, decimalDigitsAux, hq, if_false]
      rw [h1, h2]
      simp

theorem decimalDigits_of_lt_ten {d : Nat} (h : d < 10) : decimalDigits d = [digitChar d] := by
  interval_cases d <;> rfl

theorem decimalDigits_snoc {v d : Nat} (hv : v ≠ 0) (hd : d < 10) :
    decimalDigits (10 * v + d) = decimalDigits v ++ [digitChar d] := by
  have hq : (10 * v + d) / 10 = v := by omega
  have hm : (10 * v + d) % 10 = d := by omega
  have h := decimalDigitsAux_eq v (10 * v + d) [digitChar d] (by omega)
  simp only [decimalDigits, decimalDigitsAux, hq, hm, hv, if_false]
  simpa [decimalDigits] using h

theorem digitVal_eq_some {c : Char} {d : Nat} (h : digitVal c = some d) :
    d < 10 ∧ c = digitChar d := by
  unfold digitVal at h
  split_ifs at h with h0 h1 h2 h3 h4 h5 h6 h7 h8 h9 <;>
    (cases h; subst_vars; exact ⟨by decide, rfl⟩)

theorem le_of_readDigits {ds : List Char} {a v : Nat} (h : readDigits a ds = some v) :
    a ≤ v := by
  induction ds generalizing a with
  | nil =>
    simp only [readDigits, Option.some.injEq] at h
    omega
  | cons c cs ih =>
    simp only [readDigits] at h
    cases hc : digitVal c with
    | none => rw [hc] at h; cases h
    | some d =>
      rw [hc] at h
      have := ih h
      omega

/-- A canonical digit string is determined by its value. -/
theorem eq_decimalDigits_of_canonical (ds : List Char) :
    ∀ n, canonicalDigits ds → readDigits 0 ds = some n → ds = decimalDigits n := by
  induction ds using List.reverseRecOn with
  | nil => intro n h; exact absurd rfl h.1
  | append_singleton init c ih =>
    intro n hcan hval
    rw [readDigits_append] at hval
    cases hv : readDigits 0 init with
    | none => rw [hv] at hval; cases hval
    | some v =>
      rw [hv] at hval
      simp only [Option.some_bind, readDigits] at hval
      cases hc : digitVal c with
      | none => rw [hc] at hval; cases hval
      | some d =>
        rw [hc] at hval
        simp only [Option.some.injEq] at hval
        obtain ⟨hd, rfl⟩ := digitVal_eq_some hc
        subst hval
        cases init with
        | nil =>
          simp only [readDigits, Option.some.injEq] at hv
          subst hv
          simpa using (decimalDigits_of_lt_ten hd).symm
        | cons c0 rest =>
          have hhead : c0 ≠ '0' := by
            intro h0
            have := hcan.2 (by simp [h0])
            simp at this
          have hcan2 : canonicalDigits (c0 :: rest) :=
            ⟨by simp, fun h => absurd (by simpa using h) hhead⟩
          have hinit := ih v hcan2 hv
          have hv0 : v ≠ 0 := by
            simp only [readDigits] at hv
            cases hc0 : digitVal c0 with
            | none => rw [hc0] at hv; cases hv
            | some d0 =>
              rw [hc0] at hv
              obtain ⟨_, rfl⟩ := digitVal_eq_some hc0
              have hle := le_of_readDigits hv
              have hd0 : d0 ≠ 0 := fun h => hhead (by rw [h]; rfl)
              omega
          rw [decimalDigits_snoc hv0 hd, ← hinit]

/-- The decimal textual representation of an integer is unique: it is `formatInt x`. -/
theorem isDecimalRepr_iff (x : Int) (t : List Char) : IsDecimalRepr x t ↔ t = formatInt x := by
  constructor
  · intro h
    unfold IsDecimalRepr at h
    unfold formatInt
    split_ifs at h ⊢ with hx
    · obtain ⟨ds, rfl, hc, hv⟩ := h
      rw [eq_decimalDigits_of_canonical ds _ hc hv]
    · exact eq_decimalDigits_of_canonical t _ h.1 h.2
  · rintro rfl
    exact formatInt_isDecimalRepr x

/-! ## The loop of `recorrer` -/

/-- From a state whose counter is representable, the loop leaves after exactly
`length - i` further iterations (none when `length ≤ i`), provided the fuel exceeds
that number; no increment overflows. -/
theorem recorrerLoop_spec (ovf : OverflowPolicy) (length : Int) (hlen : isInt32 length) :
    ∀ (k fuel : Nat) (st : LoopState), isInt32 st.i → (length - st.i).toNat = k → k < fuel →
      recorrerLoop ovf length fuel st
        = some { i := st.i + k, iterations := st.iterations + k, overflowed := st.overflowed } := by
  intro k
  induction k with
  | zero =>
    intro fuel st _ hk hf
    obtain ⟨f, rfl⟩ : ∃ f, fuel = f + 1 := ⟨fuel - 1, by omega⟩
    have hnot : ¬ st.i < length := by omega
    simp [recorrerLoop, hnot]
  | succ k ih =>
    intro fuel st hst hk hf
    obtain ⟨f, rfl⟩ : ∃ f, fuel = f + 1 := ⟨fuel - 1, by omega⟩
    have hlt : st.i < length := by omega
    have hnext : isInt32 (st.i + 1) := by
      unfold isInt32 INT_MIN INT_MAX at *
      omega
    have hadd : intAdd ovf st.i 1 = st.i + 1 := intAdd_exact ovf hnext
    simp only [recorrerLoop, hlt, if_true, hadd]
    rw [ih f _ hnext (by simp only; omega) (by omega)]
    simp only [hnext, decide_True, Bool.not_true, Bool.or_false, Option.some.injEq,
      LoopState.mk.injEq, and_true]
    constructor
    · push_cast; ring
    · ring

/-! ## `Numero`: construction and addition -/

theorem Numero.operator_plus_wrapping_num (x y : Numero) :
    (Numero.operator_plus wrapping x y).num = wrap32 (x.num + y.num) := by
  simp only [Numero.operator_plus, intAdd_wrapping]

/-- C7: for every 32-bit signed integer `n`, the constructor (a total function, with no
error outcome) yields an object whose `num` is `n`, and that object is a valid
`Numero`. -/
theorem Numero.ctor_num (n : Int) (h : isInt32 n) :
    (Numero.ctor n).num = n ∧ (Numero.ctor n).valid :=
  ⟨rfl, h⟩

theorem Numero.ctor_num_witness :
    isInt32 (-2147483648) ∧
      ((Numero.ctor (-2147483648)).num = -2147483648 ∧ (Numero.ctor (-2147483648)).valid) :=
  ⟨by decide, Numero.ctor_num (-2147483648) (by decide)⟩

/-- C1: for all integers `a` and `b` (in particular all 32-bit signed ones), the `num` of
`Numero(a) + Numero(b)` under the wrapping policy is `a + b` reduced modulo `2^32` into
the range of `int`: it equals `wrap32 (a + b)`, it is representable, and it is congruent
to `a + b` modulo `2^32`.  In particular `Numero(2) + Numero(3)` has `num` 5. -/
theorem Numero.operator_plus_ctor (a b : Int) :
    (Numero.operator_plus wrapping (Numero.ctor a) (Numero.ctor b)).num = wrap32 (a + b) ∧
      isInt32 (Numero.operator_plus wrapping (Numero.ctor a) (Numero.ctor b)).num ∧
      ((Numero.operator_plus wrapping (Numero.ctor a) (Numero.ctor b)).num - (a + b))
          % 4294967296 = 0 ∧
      (Numero.operator_plus wrapping (Numero.ctor 2) (Numero.ctor 3)).num = 5 := by
  have h : (Numero.operator_plus wrapping (Numero.ctor a) (Numero.ctor b)).num
      = wrap32 (a + b) := Numero.operator_plus_wrapping_num _ _
  refine ⟨h, ?_, ?_, by decide⟩
  · rw [h]; exact wrap32_isInt32 _
  · rw [h]; exact wrap32_congr _

/-- C2: addition of `Numero` values under the wrapping policy is commutative: `x + y` and
`y + x` hold the same `num` (they are equal objects). -/
theorem Numero.operator_plus_comm (x y : Numero) :
    (Numero.operator_plus wrapping x y).num = (Numero.operator_plus wrapping y x).num ∧
      Numero.operator_plus wrapping x y = Numero.operator_plus wrapping y x := by
  have h : (Numero.operator_plus wrapping x y).num = (Numero.operator_plus wrapping y x).num := by
    rw [Numero.operator_plus_wrapping_num, Numero.operator_plus_wrapping_num, Int.add_comm]
  refine ⟨h, ?_⟩
  cases hx : Numero.operator_plus wrapping x y
  cases hy : Numero.operator_plus wrapping y x
  rw [hx, hy] at h
  simpa using h

/-- C3: addition of `Numero` values under the wrapping policy is associative:
`(x + y) + z` and `x + (y + z)` hold the same `num`, also when an intermediate sum
wraps. -/
theorem Numero.operator_plus_assoc (x y z : Numero) :
    (Numero.operator_plus wrapping (Numero.operator_plus wrapping x y) z).num
      = (Numero.operator_plus wrapping x (Numero.operator_plus wrapping y z)).num := by
  simp only [Numero.operator_plus_wrapping_num]
  unfold wrap32
  omega

/-- C4: `Numero(0)` is an identity for addition, whatever the overflow policy: for every
valid `Numero` value `v`, both `Numero(0) + v` and `v + Numero(0)` hold `v.num`. -/
theorem Numero.operator_plus_zero (ovf : OverflowPolicy) (v : Numero) (hv : v.valid) :
    (Numero.operator_plus ovf (Numero.ctor 0) v).num = v.num ∧
      (Numero.operator_plus ovf v (Numero.ctor 0)).num = v.num := by
  have h1 : isInt32 ((Numero.ctor 0).num + v.num) := by
    simpa [Numero.ctor] using hv
  have h2 : isInt32 (v.num + (Numero.ctor 0).num) := by
    simpa [Numero.ctor] using hv
  constructor
  · simp only [Numero.operator_plus, intAdd_exact ovf h1]
    simp [Numero.ctor]
  · simp only [Numero.operator_plus, intAdd_exact ovf h2]
    simp [Numero.ctor]

theorem Numero.operator_plus_zero_witness :
    (Numero.ctor 2147483647).valid ∧
      ((Numero.operator_plus wrapping (Numero.ctor 0) (Numero.ctor 2147483647)).num
          = (Numero.ctor 2147483647).num ∧
        (Numero.operator_plus wrapping (Numero.ctor 2147483647) (Numero.ctor 0)).num
          = (Numero.ctor 2147483647).num) :=
  ⟨by decide, Numero.operator_plus_zero wrapping (Numero.ctor 2147483647) (by decide)⟩

/-- C10: for all 32-bit signed integers `a` and `b` whose exact sum is representable, the
`num` of `Numero(a) + Numero(b)` is the exact sum `a + b` under every overflow policy:
no overflow occurs and the policy is never consulted. -/
theorem Numero.operator_plus_exact (ovf : OverflowPolicy) (a b : Int)
    (hsum : isInt32 (a + b)) :
    (Numero.operator_plus ovf (Numero.ctor a) (Numero.ctor b)).num = a + b := by
  have h : isInt32 ((Numero.ctor a).num + (Numero.ctor b).num) := hsum
  simp only [Numero.operator_plus, intAdd_exact ovf h]
  rfl

theorem Numero.operator_plus_exact_witness :
    isInt32 (2147483647 + (-2147483648)) ∧
      (Numero.operator_plus saturating (Numero.ctor 2147483647) (Numero.ctor (-2147483648))).num
        = 2147483647 + (-2147483648) :=
  ⟨by decide, Numero.operator_plus_exact saturating 2147483647 (-2147483648) (by decide)⟩

/-! ## `operator+` on objects in memory -/

theorem getElem?_lt_length {m : Mem} {i : Nat} {a : Numero} (h : m[i]? = some a) :
    i < m.length := by
  by_contra hc
  rw [List.getElem?_eq_none (by omega)] at h
  cases h

/-- C5: `operator+` does not change its operands.  For operands at addresses `this` and
`n` of a memory `m` (the addresses may coincide), holding the objects `a` and `b`, the
call returns, leaves the whole memory as it was (so both operands hold the same `num` as
before), and returns the object computed from the operand values alone.  The returned
object is a new one: once the caller has stored it in a fresh cell, overwriting that
cell leaves both operands as they were. -/
theorem Numero.operator_plus_mem_frame (ovf : OverflowPolicy) (m : Mem) (this n : Nat)
    (a b : Numero) (ha : m[this]? = some a) (hb : m[n]? = some b) :
    Numero.operator_plus_mem ovf m this n = some (Numero.operator_plus ovf a b, m) ∧
      (∀ v : Numero,
        ((m ++ [Numero.operator_plus ovf a b]).set m.length v)[this]? = some a ∧
        ((m ++ [Numero.operator_plus ovf a b]).set m.length v)[n]? = some b) := by
  have hthis : this < m.length := getElem?_lt_length ha
  have hn : n < m.length := getElem?_lt_length hb
  constructor
  · have h1 : (m ++ [Numero.ctor 0])[this]? = some a := by
      rw [List.getElem?_append_left hthis, ha]
    have h2 : (m ++ [Numero.ctor 0])[n]? = some b := by
      rw [List.getElem?_append_left hn, hb]
    have h3 : (m ++ [Numero.ctor 0])[m.length]? = some (Numero.ctor 0) := by simp
    unfold Numero.operator_plus_mem
    rw [if_pos ⟨hthis, hn⟩]
    simp only [h1, h2, h3]
    simp [Numero.operator_plus]
  · intro v
    constructor
    · rw [List.getElem?_set_ne (by omega), List.getElem?_append_left hthis, ha]
    · rw [List.getElem?_set_ne (by omega), List.getElem?_append_left hn, hb]

theorem Numero.operator_plus_mem_frame_witness :
    Numero.operator_plus_mem wrapping [Numero.ctor 2, Numero.ctor 3] 0 1
        = some (Numero.operator_plus wrapping (Numero.ctor 2) (Numero.ctor 3),
            [Numero.ctor 2, Numero.ctor 3]) ∧
      (∀ v : Numero,
        (([Numero.ctor 2, Numero.ctor 3]
            ++ [Numero.operator_plus wrapping (Numero.ctor 2) (Numero.ctor 3)]).set
              [Numero.ctor 2, Numero.ctor 3].length v)[0]? = some (Numero.ctor 2) ∧
        (([Numero.ctor 2, Numero.ctor 3]
            ++ [Numero.operator_plus wrapping (Numero.ctor 2) (Numero.ctor 3)]).set
              [Numero.ctor 2, Numero.ctor 3].length v)[1]? = some (Numero.ctor 3)) :=
  Numero.operator_plus_mem_frame wrapping [Numero.ctor 2, Numero.ctor 3] 0 1
    (Numero.ctor 2) (Numero.ctor 3) (by decide) (by decide)

/-! ## Output: `print` and `recorrer` -/

/-- C6: for every integer `n` (in particular every 32-bit signed one) and every state of
the output stream, `Numero(n).print()` appends to the stream the text `formatInt n`
followed by one line break and nothing else; `formatInt n` is the decimal textual
representation of `n` (minus sign for negative `n`, canonical digits of the magnitude),
it is the only text with that property, and it contains no line break itself.  The
object is returned unchanged.  In particular `(Numero(2) + Numero(3)).print()` appends
"5" and a line break. -/
theorem Numero.print_output (n : Int) (cout : OStream) :
    (Numero.print (Numero.ctor n) cout).2.out = cout.out ++ formatInt n ++ ['\n'] ∧
      IsDecimalRepr n (formatInt n) ∧
      (∀ t, IsDecimalRepr n t → t = formatInt n) ∧
      '\n' ∉ formatInt n ∧
      (Numero.print (Numero.ctor n) cout).1 = Numero.ctor n ∧
      (Numero.print (Numero.operator_plus wrapping (Numero.ctor 2) (Numero.ctor 3)) cout).2.out
        = cout.out ++ ['5', '\n'] := by
  refine ⟨?_, formatInt_isDecimalRepr n, fun t ht => (isDecimalRepr_iff n t).mp ht,
    newline_not_mem_formatInt n, rfl, ?_⟩
  · simp [Numero.print, OStream.write, Numero.ctor]
  · have h5 : (Numero.operator_plus wrapping (Numero.ctor 2) (Numero.ctor 3)).num = 5 := by
      decide
    have hf : formatInt 5 = ['5'] := by decide
    simp [Numero.print, OStream.write, h5, hf]

/-- C9: for every `int` value `length` (zero and negative values included), every memory
and every pointer argument, `recorrer` returns as soon as the fuel exceeds
`max(length, 0)`: its loop has then performed exactly `max(length, 0)` iterations, the
counter has reached `max(length, 0)` without any increment overflowing, the output is
the previous output followed by exactly the decimal text of `length` (which contains
no line break), and the memory is as it was; nothing in the result depends on the
contents of the memory or on the pointer. -/
theorem recorrer_spec (ovf : OverflowPolicy) (fuel : Nat) (mem : List Int) (arr : Nat)
    (length : Int) (cout : OStream) (hlen : isInt32 length)
    (hfuel : (max length 0).toNat < fuel) :
    recorrer ovf fuel mem arr length cout
        = some { mem := mem
                 cout := { out := cout.out ++ formatInt length }
                 loop := { i := max length 0
                           iterations := (max length 0).toNat
                           overflowed := false } } ∧
      IsDecimalRepr length (formatInt length) ∧
      '\n' ∉ formatInt length := by
  refine ⟨?_, formatInt_isDecimalRepr length, newline_not_mem_formatInt length⟩
  have h0 : isInt32 (0 : Int) := by decide
  have hk : (max length 0).toNat = (length - 0).toNat := by
    rw [Int.sub_zero]
    omega
  have hloop := recorrerLoop_spec ovf length hlen (max length 0).toNat fuel
    { i := 0, iterations := 0, overflowed := false } h0 hk.symm hfuel
  have hi : (0 : Int) + ((max length 0).toNat : Int) = max length 0 := by
    rw [Int.toNat_of_nonneg (le_max_right _ _)]
    simp
  simp only [recorrer, hloop, OStream.write, Nat.zero_add, hi]

theorem recorrer_spec_witness :
    isInt32 5 ∧ (max (5 : Int) 0).toNat < 6 ∧
      (recorrer wrapping 6 [1, 2, 3, 4, 5] 0 5 { out := [] }
          = some { mem := [1, 2, 3, 4, 5]
                   cout := { out := ['5'] }
                   loop := { i := 5, iterations := 5, overflowed := false } } ∧
        IsDecimalRepr 5 (formatInt 5) ∧
        '\n' ∉ formatInt 5) :=
  ⟨by decide, by decide,
    recorrer_spec wrapping 6 [1, 2, 3, 4, 5] 0 5 { out := [] } (by decide) (by decide)⟩

/-! ## `main` and the `Person` record -/

/-- C8 (as stated, refuted): at the call `saludar(juan, &juan)` the field `edad` is not
indeterminate, neither in the copy passed by value nor in the object passed by
address. -/
theorem mainCall_edad_not_uninitialized :
    ¬ ((mainCall 0).byValue.edad = none ∨ (mainCall 0).pointee.edad = none) := by
  decide

/-- C8 (amended): at the call `saludar(juan, &juan)`, in the copy passed by value and in
the object passed by address alike, the byte-sized field `edad` holds 10 and `nombre`
holds "Juan"; the field left uninitialized is the pointer field `color_piel`. -/
theorem mainCall_fields (addrJuan : Nat) :
    (mainCall addrJuan).byAddress = addrJuan ∧
      (mainCall addrJuan).byValue = (mainCall addrJuan).pointee ∧
      (mainCall addrJuan).pointee = mainBeforeCall.juan ∧
      mainBeforeCall.juan.edad = some 10 ∧
      mainBeforeCall.juan.nombre = some "Juan" ∧
      mainBeforeCall.juan.color_piel = none := by
  refine ⟨rfl, rfl, rfl, ?_, ?_, ?_⟩ <;> decide

end Bruh
